import Mathlib

/-!
Verification of the candle data pipeline (extração → transformação →
preparação de sequências) of the `indicador-preditivo` repository.

The Python sources are shallowly embedded over exact rationals:

* pandas/numpy floats become `ℚ`; a cell that can be NaN in the float code
  (produced by `diff()`, `shift(-1)`, or an undefined RSI ratio) becomes
  `Option ℚ` with `none` standing for the non-finite value.
* the machine square root used by `StandardScaler` and by the rolling
  standard deviation is abstracted as a parameter `rsqrt : ℚ → ℚ`; every
  theorem below holds for an arbitrary choice (the value of a square root
  is only ever pinned where the variance is zero, where sklearn replaces
  the scale by `1`).
* DataFrame column operations (`drop_duplicates`, `sort_values`, rolling
  windows, `dropna`) are embedded as list functions, each next to the
  source line it models.
-/

namespace Indicador

/-- One candle row of the raw CSV produced by `extrair_dados.py`
(columns `from, abertura, maxima, minima, fechamento, volume`); `ts` is the
`from` field, the bar-open timestamp in epoch seconds UTC. -/
structure Candle where
  ts : ℕ
  abertura : ℚ
  maxima : ℚ
  minima : ℚ
  fechamento : ℚ
  volume : ℚ
deriving Repr, DecidableEq

/-- `df.drop_duplicates(subset=["from"])` (pandas default `keep="first"`):
keep only the first row carrying each timestamp, preserving order.
Stated recursively: keep the head and strip its timestamp from the
deduplication of the tail. -/
def drop_duplicates : List Candle → List Candle
  | [] => []
  | c :: cs => c :: (drop_duplicates cs).filter (fun e => e.ts ≠ c.ts)

/-- `df.sort_values("from")`: sort ascending by timestamp.  The pandas sort
runs after deduplication, so keys are unique and any comparison sort gives
this result. -/
def sort_values (l : List Candle) : List Candle :=
  l.insertionSort (fun a b => a.ts ≤ b.ts)

/-- `extrair_dados.py` line 129:
`pd.concat([antigo, df]).drop_duplicates(subset=["from"]).sort_values("from")`. -/
def merge_candles (antigo novo : List Candle) : List Candle :=
  sort_values (drop_duplicates (antigo ++ novo))

/-- One candle as returned by `api.get_candles` before the column renames
(`open → abertura`, `max → maxima`, `min → minima`, `close → fechamento`);
`fromTime` is the `from` field. -/
structure RawCandle where
  fromTime : ℕ
  openV : ℚ
  maxV : ℚ
  minV : ℚ
  closeV : ℚ
  volume : ℚ
deriving Repr, DecidableEq

/-- The rename map of `buscar_candles` (lines 99-107). -/
def rawToCandle (r : RawCandle) : Candle :=
  ⟨r.fromTime, r.openV, r.maxV, r.minV, r.closeV, r.volume⟩

/-- The accumulation loop of `buscar_candles` (lines 82-96): request blocks
of at most 1000 candles, walk the reference time backwards to
`candles[0]["from"] - 1`, stop on an empty page or once the quota is met.
`api qtd agora` stands for `api.get_candles(par, timeframe, qtd, agora)`.
The loop consumes at least one unit of quota per pass, so the initial
quota bounds the number of passes; `fuel` makes that bound explicit and
the recursion structural. -/
def coletar_go (api : ℕ → ℤ → List RawCandle) : ℕ → ℕ → ℤ → List RawCandle
  | 0, _, _ => []
  | _ + 1, 0, _ => []
  | fuel + 1, total, agora =>
      let qtd := min 1000 total
      match api qtd agora with
      | [] => []
      | c :: rest =>
          (c :: rest) ++ coletar_go api fuel (total - qtd) ((c.fromTime : ℤ) - 1)

/-- `todos_candles` as accumulated by the loop of `buscar_candles` for a
quota of `total` candles, with wall-clock reference `agora`. -/
def coletar_candles (api : ℕ → ℤ → List RawCandle) (total : ℕ) (agora : ℤ) :
    List RawCandle :=
  coletar_go api total total agora

/-- `buscar_candles` (lines 76-110): accumulate pages, rename columns, then
`drop_duplicates(subset=["from"]).sort_values("from")` (line 108).  No
filter on bar-close time is applied anywhere. -/
def buscar_candles (api : ℕ → ℤ → List RawCandle) (total : ℕ) (agora : ℤ) :
    List Candle :=
  sort_values (drop_duplicates ((coletar_candles api total agora).map rawToCandle))

/-- First row with the given timestamp (`df[df["from"] == t]` head). -/
def lookup_ts (l : List Candle) (t : ℕ) : Option Candle :=
  l.find? (fun d => d.ts == t)

instance : IsTotal Candle (fun a b => a.ts ≤ b.ts) :=
  ⟨fun a b => Nat.le_total a.ts b.ts⟩

instance : IsTrans Candle (fun a b => a.ts ≤ b.ts) :=
  ⟨fun _ _ _ h h' => Nat.le_trans h h'⟩

theorem mem_drop_duplicates : ∀ {l : List Candle} {c : Candle},
    c ∈ drop_duplicates l → c ∈ l := by
  intro l
  induction l with
  | nil => intro c h; simp [drop_duplicates] at h
  | cons d cs ih =>
      intro c h
      rcases List.mem_cons.mp h with h | h
      · exact h ▸ List.mem_cons_self _ _
      · exact List.mem_cons_of_mem _ (ih (List.mem_of_mem_filter h))

theorem ts_mem_drop_duplicates {t : ℕ} : ∀ {l : List Candle},
    t ∈ (drop_duplicates l).map Candle.ts ↔ t ∈ l.map Candle.ts := by
  intro l
  induction l with
  | nil => simp [drop_duplicates]
  | cons d cs ih =>
      simp only [drop_duplicates, List.map_cons, List.mem_cons]
      constructor
      · rintro (h | h)
        · exact Or.inl h
        · obtain ⟨c, hc, hct⟩ := List.mem_map.mp h
          exact Or.inr (List.mem_map.mpr
            ⟨c, mem_drop_duplicates (List.mem_of_mem_filter hc), hct⟩)
      · rintro (h | h)
        · exact Or.inl h
        · by_cases hd : t = d.ts
          · exact Or.inl hd
          · obtain ⟨c, hc, hct⟩ := List.mem_map.mp (ih.mpr h)
            refine Or.inr (List.mem_map.mpr ⟨c, List.mem_filter.mpr ⟨hc, ?_⟩, hct⟩)
            simp [hct, hd]

theorem pairwise_ne_drop_duplicates : ∀ (l : List Candle),
    (drop_duplicates l).Pairwise (fun a b => a.ts ≠ b.ts) := by
  intro l
  induction l with
  | nil => simp [drop_duplicates]
  | cons d cs ih =>
      refine List.pairwise_cons.mpr ⟨?_, List.Pairwise.filter _ ih⟩
      intro c hc
      have h2 := (List.mem_filter.mp hc).2
      simp only [ne_eq, decide_not, Bool.not_eq_true', decide_eq_false_iff_not] at h2
      exact fun hdc => h2 hdc.symm

theorem drop_duplicates_eq_self : ∀ {l : List Candle},
    l.Pairwise (fun a b => a.ts ≠ b.ts) → drop_duplicates l = l := by
  intro l
  induction l with
  | nil => intro _; rfl
  | cons d cs ih =>
      intro h
      have hcs := (List.pairwise_cons.mp h).2
      have hhd := (List.pairwise_cons.mp h).1
      simp only [drop_duplicates, ih hcs]
      rw [List.filter_eq_self.mpr]
      intro c hc
      exact decide_eq_true (hhd c hc).symm

theorem drop_duplicates_append_fresh {y : Candle} : ∀ {zs : List Candle},
    y.ts ∉ zs.map Candle.ts →
    drop_duplicates (zs ++ [y]) = drop_duplicates zs ++ [y] := by
  intro zs
  induction zs with
  | nil => intro _; rfl
  | cons c zs' ih =>
      intro h
      have hy : y.ts ∉ zs'.map Candle.ts := fun hm => h (by simp [hm])
      have hyc : y.ts ≠ c.ts := fun he => h (by simp [he])
      simp only [List.cons_append, drop_duplicates, List.append_eq]
      rw [ih hy, List.filter_append]
      simp [hyc]

theorem drop_duplicates_append_dup {y : Candle} : ∀ {zs : List Candle},
    y.ts ∈ zs.map Candle.ts →
    drop_duplicates (zs ++ [y]) = drop_duplicates zs := by
  intro zs
  induction zs with
  | nil => intro h; simp at h
  | cons c zs' ih =>
      intro h
      simp only [List.cons_append, drop_duplicates, List.append_eq]
      by_cases hy : y.ts ∈ zs'.map Candle.ts
      · rw [ih hy]
      · have hyc : y.ts = c.ts := by
          rw [List.map_cons, List.mem_cons] at h
          rcases h with h1 | h1
          · exact h1
          · exact absurd h1 hy
        rw [drop_duplicates_append_fresh hy, List.filter_append]
        simp [hyc]

theorem drop_duplicates_append (xs ys : List Candle)
    (h : ∀ c ∈ ys, c.ts ∈ xs.map Candle.ts) :
    drop_duplicates (xs ++ ys) = drop_duplicates xs := by
  induction ys using List.reverseRecOn with
  | nil => simp
  | append_singleton ys' y ih =>
      have h1 : ∀ c ∈ ys', c.ts ∈ xs.map Candle.ts := fun c hc => h c (by simp [hc])
      have h2 : y.ts ∈ (xs ++ ys').map Candle.ts := by
        have h3 := h y (by simp)
        rw [List.map_append, List.mem_append]
        exact Or.inl h3
      rw [← List.append_assoc, drop_duplicates_append_dup h2, ih h1]

theorem lookup_ts_filter {a t : ℕ} (h : t ≠ a) : ∀ (l : List Candle),
    lookup_ts (l.filter (fun e => e.ts ≠ a)) t = lookup_ts l t := by
  intro l
  induction l with
  | nil => rfl
  | cons d ds ih =>
      rw [List.filter_cons]
      by_cases hda : d.ts = a
      · rw [if_neg (by simp [hda])]
        have hne : d.ts ≠ t := by rw [hda]; exact fun he => h he.symm
        unfold lookup_ts at ih ⊢
        rw [List.find?_cons_of_neg _ (by simp [hne])]
        exact ih
      · rw [if_pos (by simp [hda])]
        unfold lookup_ts at ih ⊢
        by_cases hdt : d.ts = t
        · rw [List.find?_cons_of_pos _ (by simp [hdt]),
            List.find?_cons_of_pos _ (by simp [hdt])]
        · rw [List.find?_cons_of_neg _ (by simp [hdt]),
            List.find?_cons_of_neg _ (by simp [hdt])]
          exact ih

theorem drop_duplicates_lookup (t : ℕ) : ∀ (l : List Candle),
    lookup_ts (drop_duplicates l) t = lookup_ts l t := by
  intro l
  induction l with
  | nil => rfl
  | cons d cs ih =>
      simp only [drop_duplicates]
      unfold lookup_ts at ih ⊢
      by_cases hdt : d.ts = t
      · rw [List.find?_cons_of_pos _ (by simp [hdt]),
          List.find?_cons_of_pos _ (by simp [hdt])]
      · rw [List.find?_cons_of_neg _ (by simp [hdt]),
          List.find?_cons_of_neg _ (by simp [hdt])]
        have hft := lookup_ts_filter (fun he => hdt he.symm) (drop_duplicates cs)
        unfold lookup_ts at hft
        rw [hft]
        exact ih

theorem lookup_ts_of_pairwise : ∀ {l : List Candle},
    l.Pairwise (fun a b => a.ts ≠ b.ts) → ∀ {c : Candle}, c ∈ l →
    lookup_ts l c.ts = some c := by
  intro l
  induction l with
  | nil => intro _ c hc; simp at hc
  | cons d ds ih =>
      intro hl c hc
      rcases List.mem_cons.mp hc with rfl | hc
      · unfold lookup_ts
        rw [List.find?_cons_of_pos _ (by simp)]
      · have hne : d.ts ≠ c.ts := (List.pairwise_cons.mp hl).1 c hc
        unfold lookup_ts at ih ⊢
        rw [List.find?_cons_of_neg _ (by simp [hne])]
        exact ih (List.pairwise_cons.mp hl).2 hc

theorem lookup_ts_append_left {l₁ : List Candle} (l₂ : List Candle) {t : ℕ}
    (h : t ∈ l₁.map Candle.ts) :
    lookup_ts (l₁ ++ l₂) t = lookup_ts l₁ t := by
  induction l₁ with
  | nil => simp at h
  | cons d ds ih =>
      rw [List.cons_append]
      unfold lookup_ts at ih ⊢
      by_cases hdt : d.ts = t
      · rw [List.find?_cons_of_pos _ (by simp [hdt]),
          List.find?_cons_of_pos _ (by simp [hdt])]
      · have h' : t ∈ ds.map Candle.ts := by
          rw [List.map_cons, List.mem_cons] at h
          rcases h with h1 | h1
          · exact absurd h1.symm hdt
          · exact h1
        rw [List.find?_cons_of_neg _ (by simp [hdt]),
          List.find?_cons_of_neg _ (by simp [hdt])]
        exact ih h'

theorem sort_values_perm (l : List Candle) : List.Perm (sort_values l) l :=
  List.perm_insertionSort _ l

theorem sort_values_sorted (l : List Candle) :
    (sort_values l).Sorted (fun a b => a.ts ≤ b.ts) :=
  List.sorted_insertionSort _ l

theorem sort_values_eq_self {l : List Candle}
    (h : l.Sorted (fun a b => a.ts ≤ b.ts)) : sort_values l = l :=
  h.insertionSort_eq

theorem merge_candles_pairwise (A B : List Candle) :
    (merge_candles A B).Pairwise (fun a b => a.ts < b.ts) := by
  have hne : (merge_candles A B).Pairwise (fun a b => a.ts ≠ b.ts) :=
    ((sort_values_perm (drop_duplicates (A ++ B))).pairwise_iff
      (fun h => h.symm)).mpr (pairwise_ne_drop_duplicates _)
  have hle : (merge_candles A B).Pairwise (fun a b => a.ts ≤ b.ts) :=
    sort_values_sorted _
  exact (hle.and hne).imp fun h => lt_of_le_of_ne h.1 h.2

theorem ts_mem_merge {A B : List Candle} {t : ℕ} :
    t ∈ (merge_candles A B).map Candle.ts ↔ t ∈ (A ++ B).map Candle.ts := by
  have h1 : t ∈ (merge_candles A B).map Candle.ts ↔
      t ∈ (drop_duplicates (A ++ B)).map Candle.ts :=
    List.Perm.mem_iff ((sort_values_perm (drop_duplicates (A ++ B))).map Candle.ts)
  exact h1.trans ts_mem_drop_duplicates

theorem merge_candles_merge_right (A B : List Candle) :
    merge_candles (merge_candles A B) B = merge_candles A B := by
  have hne : (merge_candles A B).Pairwise (fun a b => a.ts ≠ b.ts) :=
    (merge_candles_pairwise A B).imp fun h => Nat.ne_of_lt h
  have hsub : ∀ c ∈ B, c.ts ∈ (merge_candles A B).map Candle.ts := by
    intro c hc
    exact ts_mem_merge.mpr (List.mem_map.mpr ⟨c, List.mem_append_right _ hc, rfl⟩)
  show sort_values (drop_duplicates (merge_candles A B ++ B)) = merge_candles A B
  rw [drop_duplicates_append _ _ hsub, drop_duplicates_eq_self hne]
  exact sort_values_eq_self (sort_values_sorted (drop_duplicates (A ++ B)))

theorem merge_candles_self {A : List Candle}
    (hA : A.Pairwise (fun a b => a.ts < b.ts)) : merge_candles A A = A := by
  have hsub : ∀ c ∈ A, c.ts ∈ A.map Candle.ts := fun c hc =>
    List.mem_map.mpr ⟨c, hc, rfl⟩
  show sort_values (drop_duplicates (A ++ A)) = A
  rw [drop_duplicates_append _ _ hsub,
    drop_duplicates_eq_self (hA.imp fun h => Nat.ne_of_lt h)]
  exact sort_values_eq_self (hA.imp fun h => Nat.le_of_lt h)

/-- C4: the CSV merge of `extrair_dados` (line 129) produces strictly
increasing (hence unique) timestamps, satisfies
`merge (merge A B) B = merge A B`, and merging a candle series (a list
with strictly increasing timestamps, the invariant of every persisted
series) with itself returns it unchanged. -/
theorem claim_C4_merge_idempotent (A B : List Candle)
    (hA : A.Pairwise (fun a b => a.ts < b.ts)) :
    (merge_candles A B).Pairwise (fun a b => a.ts < b.ts) ∧
      merge_candles (merge_candles A B) B = merge_candles A B ∧
      merge_candles A A = A :=
  ⟨merge_candles_pairwise A B, merge_candles_merge_right A B, merge_candles_self hA⟩

/-- Witness for C4 at a concrete pair of series. -/
theorem claim_C4_merge_idempotent_witness :
    (List.Pairwise (fun a b => a.ts < b.ts)
        [(⟨100, 1, 2, 0, 1, 5⟩ : Candle), ⟨400, 1, 3, 1, 2, 6⟩]) ∧
      ((merge_candles [(⟨100, 1, 2, 0, 1, 5⟩ : Candle), ⟨400, 1, 3, 1, 2, 6⟩]
          [⟨400, 9, 9, 9, 9, 9⟩, ⟨700, 2, 4, 2, 3, 7⟩]).Pairwise
            (fun a b => a.ts < b.ts) ∧
        merge_candles
            (merge_candles [(⟨100, 1, 2, 0, 1, 5⟩ : Candle), ⟨400, 1, 3, 1, 2, 6⟩]
              [⟨400, 9, 9, 9, 9, 9⟩, ⟨700, 2, 4, 2, 3, 7⟩])
            [⟨400, 9, 9, 9, 9, 9⟩, ⟨700, 2, 4, 2, 3, 7⟩] =
          merge_candles [(⟨100, 1, 2, 0, 1, 5⟩ : Candle), ⟨400, 1, 3, 1, 2, 6⟩]
            [⟨400, 9, 9, 9, 9, 9⟩, ⟨700, 2, 4, 2, 3, 7⟩] ∧
        merge_candles [(⟨100, 1, 2, 0, 1, 5⟩ : Candle), ⟨400, 1, 3, 1, 2, 6⟩]
            [(⟨100, 1, 2, 0, 1, 5⟩ : Candle), ⟨400, 1, 3, 1, 2, 6⟩] =
          [(⟨100, 1, 2, 0, 1, 5⟩ : Candle), ⟨400, 1, 3, 1, 2, 6⟩]) :=
  ⟨by decide, claim_C4_merge_idempotent _ _ (by decide)⟩

/-- C3 counterexample: at a timestamp present in both series, the merge of
`extrair_dados` keeps the EXISTING row (pandas `drop_duplicates` keeps the
first occurrence, and `antigo` comes first in the `concat`), not the
incoming one. -/
theorem claim_C3_counterexample :
    merge_candles [⟨100, 1, 1, 1, 1, 1⟩] [⟨100, 2, 2, 2, 2, 2⟩] =
        [(⟨100, 1, 1, 1, 1, 1⟩ : Candle)] ∧
      (⟨100, 1, 1, 1, 1, 1⟩ : Candle) ≠ ⟨100, 2, 2, 2, 2, 2⟩ := by
  decide

/-- C3 amended: on a timestamp conflict the EXISTING (previously
persisted) candle wins — the merged series' row at any timestamp present
in the existing series equals the existing series' first row at that
timestamp. -/
theorem claim_C3_existing_wins (A B : List Candle) {t : ℕ}
    (ht : t ∈ A.map Candle.ts) :
    lookup_ts (merge_candles A B) t = lookup_ts A t := by
  obtain ⟨c, hcA, hct⟩ := List.mem_map.mp ht
  have hsome : ∃ c₀, lookup_ts A t = some c₀ := by
    have h4 : (A.find? (fun d => d.ts == t)).isSome :=
      List.find?_isSome.mpr ⟨c, hcA, by simp [hct]⟩
    exact Option.isSome_iff_exists.mp h4
  obtain ⟨c₀, hc₀⟩ := hsome
  have hts : c₀.ts = t := by
    have h5 := List.find?_some hc₀
    simpa using h5
  have h2 : lookup_ts (drop_duplicates (A ++ B)) t = some c₀ := by
    rw [drop_duplicates_lookup, lookup_ts_append_left _ ht, hc₀]
  have hmem : c₀ ∈ merge_candles A B :=
    (sort_values_perm _).mem_iff.mpr (List.mem_of_find?_eq_some h2)
  have hne : (merge_candles A B).Pairwise (fun a b => a.ts ≠ b.ts) :=
    (merge_candles_pairwise A B).imp fun h => Nat.ne_of_lt h
  have h3 := lookup_ts_of_pairwise hne hmem
  rw [hts] at h3
  rw [h3, hc₀]

/-- Witness for the amended C3 at a concrete conflicting pair. -/
theorem claim_C3_existing_wins_witness :
    (100 ∈ ([⟨100, 1, 1, 1, 1, 1⟩] : List Candle).map Candle.ts) ∧
      lookup_ts (merge_candles [⟨100, 1, 1, 1, 1, 1⟩] [⟨100, 2, 2, 2, 2, 2⟩]) 100 =
        lookup_ts [⟨100, 1, 1, 1, 1, 1⟩] 100 :=
  ⟨by decide, claim_C3_existing_wins _ _ (by decide)⟩

/-- C2 counterexample: `buscar_candles` applies no filter on bar-close
time.  With a source whose page holds a single candle opening exactly at
the reference time (`from = 1000`, bar length 300, so the bar closes at
1300 > 1000 — a still-forming bar), the candle is returned anyway. -/
theorem claim_C2_counterexample :
    ¬ ∀ c ∈ buscar_candles (fun _ _ => [⟨1000, 1, 1, 1, 1, 1⟩]) 1 1000,
        c.ts + 300 ≤ 1000 := by
  decide

/-- C2 amended: the fetch stage performs no open-bar filtering — its
output carries exactly the timestamps accumulated from the source (sorted
and deduplicated), regardless of how each bar's close time compares with
the fetch reference time. -/
theorem claim_C2_no_open_bar_filter (api : ℕ → ℤ → List RawCandle)
    (total : ℕ) (agora : ℤ) (t : ℕ) :
    t ∈ (coletar_candles api total agora).map RawCandle.fromTime ↔
      t ∈ (buscar_candles api total agora).map Candle.ts := by
  have h1 : t ∈ (buscar_candles api total agora).map Candle.ts ↔
      t ∈ (drop_duplicates ((coletar_candles api total agora).map rawToCandle)).map
        Candle.ts :=
    List.Perm.mem_iff ((sort_values_perm _).map Candle.ts)
  have h2 : ((coletar_candles api total agora).map rawToCandle).map Candle.ts =
      (coletar_candles api total agora).map RawCandle.fromTime := by
    rw [List.map_map]; rfl
  rw [h1, ts_mem_drop_duplicates, h2]

/-! ### `preparar_dados_LSTM.py`: per-window normalization (lines 38-54) -/

/-- `col_vals.min()` (0 for an empty column, which numpy rejects; every
window has `seq_len ≥ 1` rows). -/
def npMin : List ℚ → ℚ
  | [] => 0
  | x :: xs => xs.foldl min x

/-- `col_vals.max()`. -/
def npMax : List ℚ → ℚ
  | [] => 0
  | x :: xs => xs.foldl max x

/-- `StandardScaler.mean_`: arithmetic mean of the fit column (0 for an
empty column, on which sklearn raises instead). -/
def ss_mean (l : List ℚ) : ℚ := l.sum / l.length

/-- `StandardScaler.var_`: population variance (`ddof = 0`). -/
def ss_var (l : List ℚ) : ℚ :=
  ((l.map (fun x => (x - ss_mean l) ^ 2)).sum) / l.length

/-- `StandardScaler.scale_`: the square root of the variance, except that
sklearn replaces a zero variance by scale 1 (its zero-variance guard), so
a constant column is mapped to zeros rather than NaN. -/
def ss_scale (rsqrt : ℚ → ℚ) (l : List ℚ) : ℚ :=
  if ss_var l = 0 then 1 else rsqrt (ss_var l)

/-- `StandardScaler.transform` on one value, for a scaler fit on `l`. -/
def ss_transform (rsqrt : ℚ → ℚ) (l : List ℚ) (x : ℚ) : ℚ :=
  (x - ss_mean l) / ss_scale rsqrt l

/-- `StandardScaler.inverse_transform` on one value. -/
def ss_inverse (rsqrt : ℚ → ℚ) (l : List ℚ) (x : ℚ) : ℚ :=
  x * ss_scale rsqrt l + ss_mean l

/-- Lines 45-47: per-window min-max of one column, with the denominator
replaced by 1 when the column is constant
(`denom = col_max - col_min if col_max > col_min else 1.0`). -/
def minmax_col (vals : List ℚ) : List ℚ :=
  vals.map (fun x =>
    (x - npMin vals) / (if npMin vals < npMax vals then npMax vals - npMin vals else 1))

/-- Lines 50-52: `StandardScaler().fit_transform(col_vals)`. -/
def zscore_col (rsqrt : ℚ → ℚ) (vals : List ℚ) : List ℚ :=
  vals.map (ss_transform rsqrt vals)

/-- Column `idx` of a row-major matrix (`seq_array[:, idx]`). -/
def getCol (m : List (List ℚ)) (idx : ℕ) : List ℚ :=
  m.map (fun r => r.getD idx 0)

/-- Columnwise write `seq_norm[:, idx] = col`. -/
def setCol (m : List (List ℚ)) (idx : ℕ) (col : List ℚ) : List (List ℚ) :=
  List.zipWith (fun r v => r.set idx v) m col

/-- The two numpy arrays alive inside `normalizar_seq`: the argument
`seq_array` and its copy `seq_norm` (`seq_norm = seq_array.copy()`,
line 39); every write of the loop goes to the copy. -/
structure NormState where
  seq_array : List (List ℚ)
  seq_norm : List (List ℚ)
deriving Repr, DecidableEq

/-- One pass of the `for idx, col in enumerate(features)` loop (lines
40-52): read `col_vals = seq_array[:, idx]`; write the min-max column into
`seq_norm` for a `features_norm` name, the z-scored column for a
`features_std` name, and nothing otherwise. -/
def normalizar_step (rsqrt : ℚ → ℚ) (fn fs : List String) (m : NormState)
    (p : ℕ × String) : NormState :=
  if p.2 ∈ fn then
    { m with seq_norm := setCol m.seq_norm p.1 (minmax_col (getCol m.seq_array p.1)) }
  else if p.2 ∈ fs then
    { m with seq_norm := setCol m.seq_norm p.1 (zscore_col rsqrt (getCol m.seq_array p.1)) }
  else m

/-- The loop of `normalizar_seq` run to completion. -/
def normalizar_run (rsqrt : ℚ → ℚ) (seq : List (List ℚ))
    (features fn fs : List String) : NormState :=
  features.enum.foldl (normalizar_step rsqrt fn fs) ⟨seq, seq⟩

/-- `normalizar_seq(seq_array, features, features_norm, features_std)`
(lines 38-54): the returned copy `seq_norm`. -/
def normalizar_seq (rsqrt : ℚ → ℚ) (seq : List (List ℚ))
    (features fn fs : List String) : List (List ℚ) :=
  (normalizar_run rsqrt seq features fn fs).seq_norm

/-- The column transform selected by the feature-name lists (the if/elif
of lines 44-52); a name in neither list passes through unchanged. -/
def colTransform (rsqrt : ℚ → ℚ) (fn fs : List String) (name : String)
    (vals : List ℚ) : List ℚ :=
  if name ∈ fn then minmax_col vals
  else if name ∈ fs then zscore_col rsqrt vals
  else vals

theorem normalizar_step_seq_array (rsqrt : ℚ → ℚ) (fn fs : List String)
    (m : NormState) (p : ℕ × String) :
    (normalizar_step rsqrt fn fs m p).seq_array = m.seq_array := by
  unfold normalizar_step
  split_ifs <;> rfl

theorem foldl_step_seq_array (rsqrt : ℚ → ℚ) (fn fs : List String) :
    ∀ (l : List (ℕ × String)) (m : NormState),
    (l.foldl (normalizar_step rsqrt fn fs) m).seq_array = m.seq_array := by
  intro l
  induction l with
  | nil => intro m; rfl
  | cons p l' ih =>
      intro m
      rw [List.foldl_cons, ih, normalizar_step_seq_array]

theorem normalizar_run_seq_array (rsqrt : ℚ → ℚ) (seq : List (List ℚ))
    (features fn fs : List String) :
    (normalizar_run rsqrt seq features fn fs).seq_array = seq :=
  foldl_step_seq_array rsqrt fn fs _ _

theorem length_getCol (m : List (List ℚ)) (idx : ℕ) :
    (getCol m idx).length = m.length :=
  List.length_map _ _

theorem length_minmax_col (vals : List ℚ) :
    (minmax_col vals).length = vals.length :=
  List.length_map _ _

theorem length_zscore_col (rsqrt : ℚ → ℚ) (vals : List ℚ) :
    (zscore_col rsqrt vals).length = vals.length :=
  List.length_map _ _

theorem length_colTransform (rsqrt : ℚ → ℚ) (fn fs : List String)
    (name : String) (vals : List ℚ) :
    (colTransform rsqrt fn fs name vals).length = vals.length := by
  unfold colTransform
  split_ifs <;> simp [length_minmax_col, length_zscore_col]

theorem setCol_length (m : List (List ℚ)) (i : ℕ) (col : List ℚ) :
    (setCol m i col).length = min m.length col.length :=
  List.length_zipWith _ _ _

theorem setCol_row_lengths {W : ℕ} {i : ℕ} :
    ∀ {m : List (List ℚ)} {col : List ℚ}, (∀ r ∈ m, r.length = W) →
    ∀ r ∈ setCol m i col, r.length = W := by
  intro m
  induction m with
  | nil => intro col _ r hr; simp [setCol] at hr
  | cons a m' ih =>
      intro col hm r hr
      cases col with
      | nil => simp [setCol] at hr
      | cons v col' =>
          rw [setCol, List.zipWith_cons_cons] at hr
          rcases List.mem_cons.mp hr with rfl | hr
          · rw [List.length_set]
            exact hm a (List.mem_cons_self _ _)
          · exact ih (fun r' hr' => hm r' (List.mem_cons_of_mem _ hr')) r hr

theorem getCol_setCol_ne {i j : ℕ} (hij : i ≠ j) :
    ∀ (m : List (List ℚ)) (col : List ℚ), col.length = m.length →
    getCol (setCol m i col) j = getCol m j := by
  intro m
  induction m with
  | nil => intro col _; rfl
  | cons a m' ih =>
      intro col h
      cases col with
      | nil => simp at h
      | cons v col' =>
          rw [setCol, List.zipWith_cons_cons]
          show ((a.set i v).getD j 0) :: getCol (setCol m' i col') j =
            (a.getD j 0) :: getCol m' j
          rw [ih col' (by simpa using h)]
          rw [List.getD_eq_getElem?_getD, List.getD_eq_getElem?_getD,
            List.getElem?_set_ne hij]

theorem getCol_setCol_eq {i : ℕ} :
    ∀ (m : List (List ℚ)) (col : List ℚ), col.length = m.length →
    (∀ r ∈ m, i < r.length) →
    getCol (setCol m i col) i = col := by
  intro m
  induction m with
  | nil =>
      intro col h _
      rw [List.length_nil, List.length_eq_zero] at h
      simp [h, setCol, getCol]
  | cons a m' ih =>
      intro col h hrow
      cases col with
      | nil => simp at h
      | cons v col' =>
          rw [setCol, List.zipWith_cons_cons]
          show ((a.set i v).getD i 0) :: getCol (setCol m' i col') i = v :: col'
          rw [ih col' (by simpa using h)
              (fun r hr => hrow r (List.mem_cons_of_mem _ hr)),
            List.getD_eq_getElem?_getD,
            List.getElem?_set_self (hrow a (List.mem_cons_self _ _))]
          rfl

theorem normalizar_step_eq (rsqrt : ℚ → ℚ) (fn fs : List String)
    (sa sn : List (List ℚ)) (s : ℕ) (f : String) :
    normalizar_step rsqrt fn fs ⟨sa, sn⟩ (s, f) =
      ⟨sa, if f ∈ fn ∨ f ∈ fs then
             setCol sn s (colTransform rsqrt fn fs f (getCol sa s))
           else sn⟩ := by
  unfold normalizar_step colTransform
  by_cases h1 : f ∈ fn <;> by_cases h2 : f ∈ fs <;> simp [h1, h2]

/-- Full description of `seq_norm` after the loop has processed the
features enumerated from position `s`: a column whose index is covered by
the remaining enumeration carries its transform of the ORIGINAL
`seq_array` column, and any other column is whatever `seq_norm` already
held. -/
theorem normalizar_fold_getCol (rsqrt : ℚ → ℚ) (fn fs : List String)
    (sa : List (List ℚ)) (W : ℕ) :
    ∀ (fts : List String) (s : ℕ) (sn : List (List ℚ)) (idx : ℕ),
      sn.length = sa.length →
      (∀ r ∈ sn, r.length = W) →
      (∀ c, s ≤ c → getCol sn c = getCol sa c) →
      s + fts.length ≤ W →
      getCol ((List.enumFrom s fts).foldl (normalizar_step rsqrt fn fs)
          ⟨sa, sn⟩).seq_norm idx =
        (if s ≤ idx ∧ idx < s + fts.length then
          colTransform rsqrt fn fs (fts.getD (idx - s) "") (getCol sa idx)
        else getCol sn idx) := by
  intro fts
  induction fts with
  | nil =>
      intro s sn idx _ _ _ _
      rw [if_neg (by simp only [List.length_nil]; omega)]
      rfl
  | cons f fts' ih =>
      intro s sn idx hlen hW hinv hbound
      rw [List.enumFrom_cons, List.foldl_cons, normalizar_step_eq]
      have hsW : s < W := by
        have := hbound
        simp only [List.length_cons] at this
        omega
      have hcol_len : (colTransform rsqrt fn fs f (getCol sa s)).length = sn.length := by
        rw [length_colTransform, length_getCol, hlen]
      by_cases hwrite : f ∈ fn ∨ f ∈ fs
      case pos =>
        rw [if_pos hwrite]
        set sn1 := setCol sn s (colTransform rsqrt fn fs f (getCol sa s)) with hsn1
        have hlen1 : sn1.length = sa.length := by
          rw [hsn1, setCol_length, hcol_len, hlen, Nat.min_self]
        have hW1 : ∀ r ∈ sn1, r.length = W := setCol_row_lengths hW
        have hrowlt : ∀ r ∈ sn, s < r.length := fun r hr => by rw [hW r hr]; exact hsW
        have heq1 : getCol sn1 s = colTransform rsqrt fn fs f (getCol sa s) :=
          getCol_setCol_eq sn _ hcol_len hrowlt
        have hne1 : ∀ c, c ≠ s → getCol sn1 c = getCol sn c := fun c hc =>
          getCol_setCol_ne (fun he => hc he.symm) sn _ hcol_len
        have hinv1 : ∀ c, s + 1 ≤ c → getCol sn1 c = getCol sa c := by
          intro c hc
          rw [hne1 c (by omega)]
          exact hinv c (by omega)
        have hbound1 : s + 1 + fts'.length ≤ W := by
          simp only [List.length_cons] at hbound
          omega
        rw [ih (s + 1) sn1 idx hlen1 hW1 hinv1 hbound1]
        by_cases h1 : s + 1 ≤ idx ∧ idx < s + 1 + fts'.length
        · rw [if_pos h1, if_pos (by simp only [List.length_cons]; omega)]
          have hk : idx - s = (idx - (s + 1)) + 1 := by omega
          rw [hk, List.getD_cons_succ]
        · rw [if_neg h1]
          by_cases h2 : idx = s
          · subst h2
            rw [heq1, if_pos (by simp only [List.length_cons]; omega)]
            have hk : idx - idx = 0 := by omega
            rw [hk, List.getD_cons_zero]
          · rw [hne1 idx h2, if_neg (by simp only [List.length_cons]; omega)]
      case neg =>
        rw [if_neg hwrite]
        have hinv1 : ∀ c, s + 1 ≤ c → getCol sn c = getCol sa c := fun c hc =>
          hinv c (by omega)
        have hbound1 : s + 1 + fts'.length ≤ W := by
          simp only [List.length_cons] at hbound
          omega
        rw [ih (s + 1) sn idx hlen hW hinv1 hbound1]
        by_cases h1 : s + 1 ≤ idx ∧ idx < s + 1 + fts'.length
        · rw [if_pos h1, if_pos (by simp only [List.length_cons]; omega)]
          have hk : idx - s = (idx - (s + 1)) + 1 := by omega
          rw [hk, List.getD_cons_succ]
        · rw [if_neg h1]
          by_cases h2 : idx = s
          · subst h2
            rw [hinv idx (Nat.le_refl _), if_pos (by simp only [List.length_cons]; omega)]
            have hk : idx - idx = 0 := by omega
            rw [hk, List.getD_cons_zero]
            unfold colTransform
            rcases not_or.mp hwrite with ⟨hn1, hn2⟩
            rw [if_neg hn1, if_neg hn2]
          · rw [if_neg (by simp only [List.length_cons]; omega)]

/-- Column-level description of `normalizar_seq` for a rectangular window
(`seq_array` has one entry per feature in every row, as produced by
`df[features].values`). -/
theorem getCol_normalizar_seq (rsqrt : ℚ → ℚ) (seq : List (List ℚ))
    (features fn fs : List String) (idx : ℕ)
    (hW : ∀ r ∈ seq, r.length = features.length)
    (hidx : idx < features.length) :
    getCol (normalizar_seq rsqrt seq features fn fs) idx =
      colTransform rsqrt fn fs (features.getD idx "") (getCol seq idx) := by
  unfold normalizar_seq normalizar_run
  have h := normalizar_fold_getCol rsqrt fn fs seq features.length features 0 seq
    idx rfl hW (fun c _ => rfl) (by omega)
  show getCol ((List.enumFrom 0 features).foldl (normalizar_step rsqrt fn fs)
      ⟨seq, seq⟩).seq_norm idx = _
  rw [h, if_pos (by omega)]
  have hk : idx - 0 = idx := by omega
  rw [hk]

theorem foldl_min_le_init : ∀ (l : List ℚ) (a : ℚ), l.foldl min a ≤ a := by
  intro l
  induction l with
  | nil => intro a; exact le_refl a
  | cons x xs ih =>
      intro a
      calc (x :: xs).foldl min a = xs.foldl min (min a x) := rfl
        _ ≤ min a x := ih _
        _ ≤ a := min_le_left _ _

theorem foldl_min_le_mem : ∀ (l : List ℚ) (a x : ℚ), x ∈ l → l.foldl min a ≤ x := by
  intro l
  induction l with
  | nil => intro a x hx; simp at hx
  | cons y ys ih =>
      intro a x hx
      rcases List.mem_cons.mp hx with rfl | hx
      · calc (x :: ys).foldl min a = ys.foldl min (min a x) := rfl
          _ ≤ min a x := foldl_min_le_init _ _
          _ ≤ x := min_le_right _ _
      · exact ih _ x hx

theorem foldl_max_init_le : ∀ (l : List ℚ) (a : ℚ), a ≤ l.foldl max a := by
  intro l
  induction l with
  | nil => intro a; exact le_refl a
  | cons x xs ih =>
      intro a
      calc a ≤ max a x := le_max_left _ _
        _ ≤ xs.foldl max (max a x) := ih _
        _ = (x :: xs).foldl max a := rfl

theorem foldl_max_mem_le : ∀ (l : List ℚ) (a x : ℚ), x ∈ l → x ≤ l.foldl max a := by
  intro l
  induction l with
  | nil => intro a x hx; simp at hx
  | cons y ys ih =>
      intro a x hx
      rcases List.mem_cons.mp hx with rfl | hx
      · calc x ≤ max a x := le_max_right _ _
          _ ≤ ys.foldl max (max a x) := foldl_max_init_le _ _
          _ = (x :: ys).foldl max a := rfl
      · exact ih _ x hx

theorem npMin_le {l : List ℚ} {x : ℚ} (hx : x ∈ l) : npMin l ≤ x := by
  cases l with
  | nil => simp at hx
  | cons y ys =>
      rcases List.mem_cons.mp hx with rfl | hx
      · exact foldl_min_le_init _ _
      · exact foldl_min_le_mem _ _ _ hx

theorem le_npMax {l : List ℚ} {x : ℚ} (hx : x ∈ l) : x ≤ npMax l := by
  cases l with
  | nil => simp at hx
  | cons y ys =>
      rcases List.mem_cons.mp hx with rfl | hx
      · exact foldl_max_init_le _ _
      · exact foldl_max_mem_le _ _ _ hx

theorem getD_map_lt (f : ℚ → ℚ) (l : List ℚ) (j : ℕ) (hj : j < l.length) :
    (l.map f).getD j 0 = f (l.getD j 0) := by
  rw [List.getD_eq_getElem?_getD, List.getD_eq_getElem?_getD, List.getElem?_map,
    List.getElem?_eq_getElem hj]
  rfl

theorem getD_mem {l : List ℚ} {j : ℕ} (hj : j < l.length) : l.getD j 0 ∈ l := by
  rw [List.getD_eq_getElem?_getD, List.getElem?_eq_getElem hj]
  exact List.getElem_mem _

theorem minmax_col_bounds {vals : List ℚ} (hlt : npMin vals < npMax vals) :
    ∀ v ∈ minmax_col vals, 0 ≤ v ∧ v ≤ 1 := by
  intro v hv
  obtain ⟨x, hx, rfl⟩ := List.mem_map.mp hv
  rw [if_pos hlt]
  have hd : (0 : ℚ) < npMax vals - npMin vals := by linarith
  constructor
  · exact div_nonneg (by linarith [npMin_le hx]) (le_of_lt hd)
  · rw [div_le_one hd]
    linarith [le_npMax hx]

theorem minmax_col_max {vals : List ℚ} (hlt : npMin vals < npMax vals)
    {j : ℕ} (hj : j < vals.length) (hmax : vals.getD j 0 = npMax vals) :
    (minmax_col vals).getD j 0 = 1 := by
  unfold minmax_col
  rw [getD_map_lt _ _ _ hj, hmax, if_pos hlt]
  exact div_self (by linarith)

theorem minmax_col_min {vals : List ℚ} {j : ℕ} (hj : j < vals.length)
    (hmin : vals.getD j 0 = npMin vals) :
    (minmax_col vals).getD j 0 = 0 := by
  unfold minmax_col
  rw [getD_map_lt _ _ _ hj, hmin]
  rw [sub_self, zero_div]

theorem minmax_col_const {vals : List ℚ} (heq : npMin vals = npMax vals) :
    ∀ v ∈ minmax_col vals, v = 0 := by
  intro v hv
  obtain ⟨x, hx, rfl⟩ := List.mem_map.mp hv
  have hx2 : x = npMin vals :=
    le_antisymm (heq ▸ le_npMax hx) (npMin_le hx)
  rw [if_neg (by rw [heq]; exact lt_irrefl _), hx2, sub_self, zero_div]

/-- C5: for every window and range-normalized column of `normalizar_seq`
(lines 43-47): in a non-constant window every output lies in `[0, 1]`,
rows holding the raw maximum map to exactly 1 and rows holding the raw
minimum to exactly 0; in a constant window every output is 0 (the
denominator is replaced by 1, so no division error occurs). -/
theorem claim_C5_minmax_normalization (rsqrt : ℚ → ℚ) (seq : List (List ℚ))
    (features fn fs : List String) (idx : ℕ)
    (hW : ∀ r ∈ seq, r.length = features.length)
    (hidx : idx < features.length)
    (hmem : features.getD idx "" ∈ fn) :
    (npMin (getCol seq idx) < npMax (getCol seq idx) →
      (∀ v ∈ getCol (normalizar_seq rsqrt seq features fn fs) idx, 0 ≤ v ∧ v ≤ 1) ∧
      (∀ j, j < (getCol seq idx).length →
        (getCol seq idx).getD j 0 = npMax (getCol seq idx) →
        (getCol (normalizar_seq rsqrt seq features fn fs) idx).getD j 0 = 1) ∧
      (∀ j, j < (getCol seq idx).length →
        (getCol seq idx).getD j 0 = npMin (getCol seq idx) →
        (getCol (normalizar_seq rsqrt seq features fn fs) idx).getD j 0 = 0)) ∧
    (npMin (getCol seq idx) = npMax (getCol seq idx) →
      ∀ v ∈ getCol (normalizar_seq rsqrt seq features fn fs) idx, v = 0) := by
  rw [getCol_normalizar_seq rsqrt seq features fn fs idx hW hidx]
  unfold colTransform
  rw [if_pos hmem]
  exact ⟨fun hlt => ⟨minmax_col_bounds hlt,
      fun j hj hm => minmax_col_max hlt hj hm,
      fun j hj hm => minmax_col_min hj hm⟩,
    fun heq => minmax_col_const heq⟩

/-- Witness for C5 on the window with close column `[1, 3, 2]`. -/
theorem claim_C5_minmax_normalization_witness :
    (npMin (getCol [[(1 : ℚ)], [3], [2]] 0) < npMax (getCol [[(1 : ℚ)], [3], [2]] 0) →
      (∀ v ∈ getCol (normalizar_seq (fun q => q) [[(1 : ℚ)], [3], [2]]
          ["fechamento"] ["fechamento"] []) 0, 0 ≤ v ∧ v ≤ 1) ∧
      (∀ j, j < (getCol [[(1 : ℚ)], [3], [2]] 0).length →
        (getCol [[(1 : ℚ)], [3], [2]] 0).getD j 0 =
          npMax (getCol [[(1 : ℚ)], [3], [2]] 0) →
        (getCol (normalizar_seq (fun q => q) [[(1 : ℚ)], [3], [2]]
          ["fechamento"] ["fechamento"] []) 0).getD j 0 = 1) ∧
      (∀ j, j < (getCol [[(1 : ℚ)], [3], [2]] 0).length →
        (getCol [[(1 : ℚ)], [3], [2]] 0).getD j 0 =
          npMin (getCol [[(1 : ℚ)], [3], [2]] 0) →
        (getCol (normalizar_seq (fun q => q) [[(1 : ℚ)], [3], [2]]
          ["fechamento"] ["fechamento"] []) 0).getD j 0 = 0)) ∧
    (npMin (getCol [[(1 : ℚ)], [3], [2]] 0) = npMax (getCol [[(1 : ℚ)], [3], [2]] 0) →
      ∀ v ∈ getCol (normalizar_seq (fun q => q) [[(1 : ℚ)], [3], [2]]
          ["fechamento"] ["fechamento"] []) 0, v = 0) :=
  claim_C5_minmax_normalization (fun q => q) [[(1 : ℚ)], [3], [2]]
    ["fechamento"] ["fechamento"] [] 0 (by decide) (by decide) (by decide)

/-- C10: `normalizar_seq` never mutates its input — every write of the
loop goes to the copy `seq_norm`, so the `seq_array` component of the
state is unchanged when the loop finishes — and every column whose name
is in neither designated list (`RSI_14`, `hora_num`, `minuto`,
`dia_semana` in `preparar_dados`) is returned exactly equal to its input
values. -/
theorem claim_C10_no_mutation_passthrough (rsqrt : ℚ → ℚ)
    (seq : List (List ℚ)) (features fn fs : List String)
    (hW : ∀ r ∈ seq, r.length = features.length) :
    (normalizar_run rsqrt seq features fn fs).seq_array = seq ∧
      ∀ idx, idx < features.length → features.getD idx "" ∉ fn →
        features.getD idx "" ∉ fs →
        getCol (normalizar_seq rsqrt seq features fn fs) idx = getCol seq idx := by
  refine ⟨normalizar_run_seq_array _ _ _ _ _, ?_⟩
  intro idx hidx h1 h2
  rw [getCol_normalizar_seq rsqrt seq features fn fs idx hW hidx]
  unfold colTransform
  rw [if_neg h1, if_neg h2]

/-- Witness for C10: a two-column window whose `RSI_14` column passes
through while the close column is min-max normalized. -/
theorem claim_C10_no_mutation_passthrough_witness :
    (normalizar_run (fun q => q) [[(1 : ℚ), 50], [3, 60]]
        ["fechamento", "RSI_14"] ["fechamento"] ["volume"]).seq_array =
      [[(1 : ℚ), 50], [3, 60]] ∧
      ∀ idx, idx < (["fechamento", "RSI_14"] : List String).length →
        (["fechamento", "RSI_14"] : List String).getD idx "" ∉
          (["fechamento"] : List String) →
        (["fechamento", "RSI_14"] : List String).getD idx "" ∉
          (["volume"] : List String) →
        getCol (normalizar_seq (fun q => q) [[(1 : ℚ), 50], [3, 60]]
          ["fechamento", "RSI_14"] ["fechamento"] ["volume"]) idx =
          getCol [[(1 : ℚ), 50], [3, 60]] idx :=
  claim_C10_no_mutation_passthrough (fun q => q) [[(1 : ℚ), 50], [3, 60]]
    ["fechamento", "RSI_14"] ["fechamento"] ["volume"] (by decide)

/-! ### `criar_sequencias` (lines 57-83): windows, targets, discards -/

/-- A DataFrame row as seen by the sequence builder: feature name ↦ cell,
with `none` for a non-finite cell (`np.isfinite` is false exactly on
`none`). -/
def RowD : Type := String → Option ℚ

/-- `df.iloc[i:i+seq_len][features].values` (line 63). -/
def extract_window (df : List RowD) (i L : ℕ) (features : List String) :
    List (List (Option ℚ)) :=
  ((df.drop i).take L).map (fun r => features.map r)

/-- `np.isfinite(seq).all()` (line 67). -/
def all_finite (m : List (List (Option ℚ))) : Bool :=
  m.all (fun row => row.all (fun c => c.isSome))

/-- The float matrix handed to `normalizar_seq` once the finiteness check
has passed: unwrap the options. -/
def unwrap_mat (m : List (List (Option ℚ))) : List (List ℚ) :=
  m.map (fun row => row.map (fun c => c.getD 0))

/-- `np.isfinite(seq_norm).all()` (line 75).  Over exact rationals every
value is finite, so this check is constantly true: min-max and z-score
keep finite inputs finite, since their denominators are replaced by 1
when degenerate. -/
def all_finite_rat (_m : List (List ℚ)) : Bool := true

/-- One pass of the window loop of `criar_sequencias` (lines 62-80),
threading the accumulator `(X, y, descartadas)`. -/
def criar_step (rsqrt : ℚ → ℚ) (df : List RowD) (seq_len : ℕ)
    (features fn fs : List String) (target : String)
    (acc : List (List (List ℚ)) × List ℚ × ℕ) (i : ℕ) :
    List (List (List ℚ)) × List ℚ × ℕ :=
  let seq := extract_window df i seq_len features
  let target_val := (df.getD (i + seq_len) (fun _ => none)) target
  if ¬ (all_finite seq = true ∧ target_val.isSome = true) then
    (acc.1, acc.2.1, acc.2.2 + 1)
  else
    let seq_norm := normalizar_seq rsqrt (unwrap_mat seq) features fn fs
    if all_finite_rat seq_norm = false then
      (acc.1, acc.2.1, acc.2.2 + 1)
    else
      (acc.1 ++ [seq_norm], acc.2.1 ++ [target_val.getD 0], acc.2.2)

/-- `criar_sequencias(df, seq_len, features, features_norm, features_std,
target)` (lines 57-83), returning `(X, y, descartadas)`;
`limite = len(df) - seq_len` (line 60) keeps only complete windows. -/
def criar_sequencias (rsqrt : ℚ → ℚ) (df : List RowD) (seq_len : ℕ)
    (features fn fs : List String) (target : String) :
    List (List (List ℚ)) × List ℚ × ℕ :=
  (List.range (df.length - seq_len)).foldl
    (criar_step rsqrt df seq_len features fn fs target) ([], [], 0)

/-- A row of the C6 scenario frame: close, volume and future-close cells. -/
def mkRow (fe vo fu : ℚ) : RowD := fun s =>
  if s = "fechamento" then some fe
  else if s = "volume" then some vo
  else if s = "fechamento_futuro" then some fu
  else none

theorem zscore_col_const (rsqrt : ℚ → ℚ) (n : ℕ) (v : ℚ) (hn : 0 < n) :
    zscore_col rsqrt (List.replicate n v) = List.replicate n 0 := by
  have hn' : (n : ℚ) ≠ 0 := Nat.cast_ne_zero.mpr (Nat.pos_iff_ne_zero.mp hn)
  have hmean : ss_mean (List.replicate n v) = v := by
    unfold ss_mean
    rw [List.sum_replicate, List.length_replicate, nsmul_eq_mul]
    field_simp
  have hvar : ss_var (List.replicate n v) = 0 := by
    unfold ss_var
    rw [hmean, List.map_replicate, sub_self]
    have h0 : (0 : ℚ) ^ 2 = 0 := by norm_num
    rw [h0, List.sum_replicate, smul_zero, zero_div]
  unfold zscore_col ss_transform ss_scale
  rw [List.map_replicate, hvar, if_pos rfl, hmean, sub_self, div_one]

/-- The fold of the window loop under everywhere-finite input: every
window is appended and the discard counter never moves. -/
theorem criar_fold_spec (rsqrt : ℚ → ℚ) (df : List RowD) (seq_len : ℕ)
    (features fn fs : List String) (target : String) : ∀ (n : ℕ),
    (∀ i, i < n → all_finite (extract_window df i seq_len features) = true ∧
      ((df.getD (i + seq_len) (fun _ => none)) target).isSome = true) →
    ∀ acc : List (List (List ℚ)) × List ℚ × ℕ,
      ((List.range n).foldl (criar_step rsqrt df seq_len features fn fs target)
          acc).2.2 = acc.2.2 ∧
      ((List.range n).foldl (criar_step rsqrt df seq_len features fn fs target)
          acc).1.length = acc.1.length + n := by
  intro n
  induction n with
  | zero => intro _ acc; exact ⟨rfl, rfl⟩
  | succ n ih =>
      intro h acc
      rw [List.range_succ, List.foldl_append, List.foldl_cons, List.foldl_nil]
      obtain ⟨h1, h2⟩ := ih (fun i hi => h i (by omega)) acc
      obtain ⟨hf, ht⟩ := h n (by omega)
      rw [show ∀ r, criar_step rsqrt df seq_len features fn fs target r n =
          (r.1 ++ [normalizar_seq rsqrt
              (unwrap_mat (extract_window df n seq_len features)) features fn fs],
            r.2.1 ++ [((df.getD (n + seq_len) (fun _ => none)) target).getD 0],
            r.2.2) from ?_]
      · constructor
        · exact h1
        · rw [List.length_append, h2, List.length_cons, List.length_nil]
          omega
      · intro r
        unfold criar_step
        rw [if_neg (not_not_intro ⟨hf, ht⟩), if_neg (by unfold all_finite_rat; simp)]

/-- C6 counterexample: a 2-row window whose volume column is the constant
`[5, 5]` (zero standard deviation) is NOT discarded — sklearn's
`StandardScaler` zero-variance guard maps it to `[0, 0]`, the window is
emitted, and the discard counter stays 0 (the claim requires the window
to disappear and the counter to reach 1). -/
theorem claim_C6_counterexample :
    criar_sequencias (fun q => q) [mkRow 1 5 2, mkRow 2 5 3, mkRow 3 5 4] 2
        ["fechamento", "volume"] ["fechamento"] ["volume"] "fechamento_futuro" =
      ([[[0, 0], [1, 0]]], [4], 0) := by
  with_unfolding_all decide

/-- C6 amended: a window whose volume column is constant is NOT
discarded: provided every raw cell and target of the frame is finite, the
builder emits every complete window and the discard counter stays 0 —
`StandardScaler`'s zero-variance guard (scale = 1) maps any constant
column to all zeros instead of producing a non-finite value. -/
theorem claim_C6_constant_window_kept (rsqrt : ℚ → ℚ) (df : List RowD)
    (seq_len : ℕ) (features fn fs : List String) (target : String)
    (hfin : ∀ i, i < df.length - seq_len →
      all_finite (extract_window df i seq_len features) = true ∧
      ((df.getD (i + seq_len) (fun _ => none)) target).isSome = true) :
    ((criar_sequencias rsqrt df seq_len features fn fs target).2.2 = 0 ∧
      (criar_sequencias rsqrt df seq_len features fn fs target).1.length =
        df.length - seq_len) ∧
      ∀ (n : ℕ) (v : ℚ), 0 < n →
        zscore_col rsqrt (List.replicate n v) = List.replicate n 0 := by
  have h := criar_fold_spec rsqrt df seq_len features fn fs target
    (df.length - seq_len) hfin ([], [], 0)
  exact ⟨⟨h.1, by rw [criar_sequencias, h.2]; simp⟩,
    fun n v hn => zscore_col_const rsqrt n v hn⟩

/-- Witness for the amended C6 at the constant-volume frame. -/
theorem claim_C6_constant_window_kept_witness :
    (((criar_sequencias (fun q => q) [mkRow 2 7 3, mkRow 4 7 5, mkRow 6 7 8] 2
        ["fechamento", "volume"] ["fechamento"] ["volume"]
        "fechamento_futuro").2.2 = 0 ∧
      (criar_sequencias (fun q => q) [mkRow 2 7 3, mkRow 4 7 5, mkRow 6 7 8] 2
        ["fechamento", "volume"] ["fechamento"] ["volume"]
        "fechamento_futuro").1.length =
        ([mkRow 2 7 3, mkRow 4 7 5, mkRow 6 7 8] : List RowD).length - 2) ∧
      ∀ (n : ℕ) (v : ℚ), 0 < n →
        zscore_col (fun q => q) (List.replicate n v) = List.replicate n 0) :=
  claim_C6_constant_window_kept (fun q => q)
    [mkRow 2 7 3, mkRow 4 7 5, mkRow 6 7 8] 2 ["fechamento", "volume"]
    ["fechamento"] ["volume"] "fechamento_futuro" (by decide)

/-! ### `preparar_dados` split and target scaler (lines 119-126) -/

/-- `int(len(X) * (1 - test_size))` (line 119); `int()` truncates toward
zero, which on the nonnegative product of a test fraction in `[0, 1]` is
the floor. -/
def split_idx (n : ℕ) (test_size : ℚ) : ℕ :=
  (⌊(n : ℚ) * (1 - test_size)⌋).toNat

/-- `y_train_raw = y[:split_idx]` (line 121). -/
def y_train_raw (y : List ℚ) (test_size : ℚ) : List ℚ :=
  y.take (split_idx y.length test_size)

/-- The fitted target scaler (lines 124-125 and the `.npz` record of line
134): `StandardScaler` mean and scale, fit on the training targets only. -/
def y_scaler_params (rsqrt : ℚ → ℚ) (y : List ℚ) (test_size : ℚ) : ℚ × ℚ :=
  (ss_mean (y_train_raw y test_size), ss_scale rsqrt (y_train_raw y test_size))

theorem ss_var_nonneg (l : List ℚ) : 0 ≤ ss_var l := by
  unfold ss_var
  apply div_nonneg
  · apply List.sum_nonneg
    intro x hx
    obtain ⟨a, _, rfl⟩ := List.mem_map.mp hx
    exact sq_nonneg _
  · exact Nat.cast_nonneg _

theorem ss_scale_ne_zero (rsqrt : ℚ → ℚ) (l : List ℚ)
    (hpos : ∀ q : ℚ, 0 < q → 0 < rsqrt q) : ss_scale rsqrt l ≠ 0 := by
  unfold ss_scale
  split_ifs with h
  · exact one_ne_zero
  · exact ne_of_gt (hpos _ (lt_of_le_of_ne (ss_var_nonneg l) (Ne.symm h)))

/-- C8: the fitted target scaler is a function of the training partition
only.  If a second run keeps the window count and every training target
(`y.take split_idx`) and replaces the test targets by anything of the
same length, the fitted `(mean, scale)` pair is unchanged. -/
theorem claim_C8_scaler_from_train_only (rsqrt : ℚ → ℚ) (test_size : ℚ)
    (y e : List ℚ)
    (hlen : (y.take (split_idx y.length test_size) ++ e).length = y.length) :
    y_scaler_params rsqrt (y.take (split_idx y.length test_size) ++ e) test_size =
      y_scaler_params rsqrt y test_size := by
  set k := split_idx y.length test_size with hk
  have hlen2 : (y.take k ++ e).length = y.length := hlen
  unfold y_scaler_params y_train_raw
  rw [hlen2, ← hk]
  by_cases hky : k ≤ y.length
  · have htk : (y.take k).length = k := by
      rw [List.length_take]
      omega
    rw [List.take_left' htk]
  · have hty : y.take k = y := List.take_of_length_le (by omega)
    have he : e = [] := by
      rw [hty, List.length_append] at hlen2
      have he0 : e.length = 0 := by omega
      exact List.length_eq_zero.mp he0
    rw [hty, he, List.append_nil, hty]

/-- Witness for C8: 4 targets, test fraction 1/4 (split index 3), with
the single test target replaced by a different value. -/
theorem claim_C8_scaler_from_train_only_witness :
    (([(1 : ℚ), 2, 3, 4].take
        (split_idx ([(1 : ℚ), 2, 3, 4]).length (1 / 4)) ++ [99]).length =
      ([(1 : ℚ), 2, 3, 4]).length) ∧
    y_scaler_params (fun q => q)
        ([(1 : ℚ), 2, 3, 4].take
          (split_idx ([(1 : ℚ), 2, 3, 4]).length (1 / 4)) ++ [99]) (1 / 4) =
      y_scaler_params (fun q => q) [(1 : ℚ), 2, 3, 4] (1 / 4) :=
  ⟨by with_unfolding_all decide,
    claim_C8_scaler_from_train_only (fun q => q) (1 / 4) [(1 : ℚ), 2, 3, 4]
      [99] (by with_unfolding_all decide)⟩

/-- C9: the fitted target scaler inverts exactly — for any target array,
applying `transform` and then `inverse_transform` with the scaler fit on
the training partition returns the array (over exact rationals the
identity is exact; the float code is equal within rounding).  The square
root parameter is only constrained to be positive on positive variances,
as the machine square root is. -/
theorem claim_C9_scaler_roundtrip (rsqrt : ℚ → ℚ) (test_size : ℚ)
    (y ys : List ℚ) (hpos : ∀ q : ℚ, 0 < q → 0 < rsqrt q)
    (_hfit : y_train_raw y test_size ≠ []) :
    (ys.map (ss_transform rsqrt (y_train_raw y test_size))).map
        (ss_inverse rsqrt (y_train_raw y test_size)) = ys := by
  have hs : ss_scale rsqrt (y_train_raw y test_size) ≠ 0 :=
    ss_scale_ne_zero rsqrt _ hpos
  rw [List.map_map]
  have hone : ∀ x ∈ ys,
      (ss_inverse rsqrt (y_train_raw y test_size) ∘
        ss_transform rsqrt (y_train_raw y test_size)) x = id x := by
    intro x _
    show ss_inverse rsqrt (y_train_raw y test_size)
      (ss_transform rsqrt (y_train_raw y test_size) x) = x
    unfold ss_inverse ss_transform
    rw [div_mul_cancel₀ _ hs]
    ring
  rw [List.map_congr_left hone, List.map_id]

/-- Witness for C9: scaler fit on train targets `[1, 2, 3]`, round trip
on `[10, 20]`. -/
theorem claim_C9_scaler_roundtrip_witness :
    ((∀ q : ℚ, 0 < q → 0 < (fun q : ℚ => q) q) ∧
      y_train_raw [(1 : ℚ), 2, 3, 4] (1 / 4) ≠ []) ∧
    (([(10 : ℚ), 20].map
        (ss_transform (fun q => q) (y_train_raw [(1 : ℚ), 2, 3, 4] (1 / 4)))).map
          (ss_inverse (fun q => q) (y_train_raw [(1 : ℚ), 2, 3, 4] (1 / 4)))) =
      [(10 : ℚ), 20] :=
  ⟨⟨fun _ hq => hq, by with_unfolding_all decide⟩,
    claim_C9_scaler_roundtrip (fun q => q) (1 / 4) [(1 : ℚ), 2, 3, 4]
      [(10 : ℚ), 20] (fun _ hq => hq) (by with_unfolding_all decide)⟩

/-! ### `transformar_dados.py`: RSI(14) (lines 124-131) -/

/-- `delta = df['fechamento'].diff()`: NaN (`none`) at row 0, the close
difference elsewhere. -/
def deltas (closes : List ℚ) : List (Option ℚ) :=
  (List.range closes.length).map (fun i =>
    if i = 0 then none else some (closes.getD i 0 - closes.getD (i - 1) 0))

/-- `up = delta.clip(lower=0)`. -/
def up_moves (closes : List ℚ) : List (Option ℚ) :=
  (deltas closes).map (Option.map (fun d => max d 0))

/-- `down = -1 * delta.clip(upper=0)`. -/
def down_moves (closes : List ℚ) : List (Option ℚ) :=
  (deltas closes).map (Option.map (fun d => -(min d 0)))

/-- The entries a pandas rolling window of width `w` sees at row `i`:
the last `w` entries up to and including `i`. -/
def window_slice (xs : List (Option ℚ)) (w i : ℕ) : List (Option ℚ) :=
  (xs.take (i + 1)).drop (i + 1 - w)

/-- `x.rolling(w, min_periods=1).mean()` at row `i`: the mean of the
non-NaN entries of the window, NaN (`none`) when every entry is NaN. -/
def roll_mean (xs : List (Option ℚ)) (w i : ℕ) : Option ℚ :=
  let vals := (window_slice xs w i).filterMap id
  if vals.length = 0 then none else some (vals.sum / vals.length)

/-- Lines 128-131: `rs = roll_up / roll_down; RSI_14 = 100 - 100/(1+rs)`,
with the float semantics of the division made explicit: a positive
average gain divided by a zero average loss is `+∞`, collapsing RSI to
`100 - 100/∞ = 100`; `0/0` is NaN, leaving RSI undefined. -/
def RSI_14 (closes : List ℚ) (i : ℕ) : Option ℚ :=
  match roll_mean (up_moves closes) 14 i, roll_mean (down_moves closes) 14 i with
  | some u, some d =>
      if d = 0 then (if u = 0 then none else some 100)
      else some (100 - 100 / (1 + u / d))
  | _, _ => none

theorem list_sum_pos_of_mem : ∀ (l : List ℚ), (∀ x ∈ l, 0 ≤ x) →
    ∀ x ∈ l, 0 < x → 0 < l.sum := by
  intro l
  induction l with
  | nil => intro _ x hx; simp at hx
  | cons y ys ih =>
      intro hnn x hx hxpos
      rw [List.sum_cons]
      have hys : 0 ≤ ys.sum :=
        List.sum_nonneg fun z hz => hnn z (List.mem_cons_of_mem _ hz)
      rcases List.mem_cons.mp hx with rfl | hx
      · linarith
      · have hy : 0 ≤ y := hnn y (List.mem_cons_self _ _)
        have := ih (fun z hz => hnn z (List.mem_cons_of_mem _ hz)) x hx hxpos
        linarith

theorem mem_window_slice {xs : List (Option ℚ)} {w i j : ℕ}
    (h1 : i + 1 - w ≤ j) (h2 : j ≤ i) {v : Option ℚ}
    (hv : xs[j]? = some v) : v ∈ window_slice xs w i := by
  have hjlen : j < xs.length := by
    rcases List.getElem?_eq_some.mp hv with ⟨h, _⟩
    exact h
  have hidx : (window_slice xs w i)[j - (i + 1 - w)]? = some v := by
    unfold window_slice
    rw [List.getElem?_drop, List.getElem?_take,
      if_pos (by omega : (i + 1 - w) + (j - (i + 1 - w)) < i + 1)]
    rw [show (i + 1 - w) + (j - (i + 1 - w)) = j by omega]
    exact hv
  exact List.getElem?_mem hidx

theorem mem_of_mem_window_slice {xs : List (Option ℚ)} {w i : ℕ}
    {v : Option ℚ} (hv : v ∈ window_slice xs w i) : v ∈ xs :=
  List.mem_of_mem_take (List.mem_of_mem_drop hv)

theorem up_moves_nonneg (closes : List ℚ) :
    ∀ q : ℚ, some q ∈ up_moves closes → 0 ≤ q := by
  intro q hq
  obtain ⟨o, _, ho⟩ := List.mem_map.mp hq
  cases o with
  | none => simp at ho
  | some d =>
      simp only [Option.map_some', Option.some.injEq] at ho
      rw [← ho]
      exact le_max_right _ _

theorem down_moves_nonneg (closes : List ℚ) :
    ∀ q : ℚ, some q ∈ down_moves closes → 0 ≤ q := by
  intro q hq
  obtain ⟨o, _, ho⟩ := List.mem_map.mp hq
  cases o with
  | none => simp at ho
  | some d =>
      simp only [Option.map_some', Option.some.injEq] at ho
      rw [← ho, neg_nonneg]
      exact min_le_right _ _

theorem deltas_getElem {closes : List ℚ} {j : ℕ} (hj : j < closes.length) :
    (deltas closes)[j]? =
      some (if j = 0 then none
        else some (closes.getD j 0 - closes.getD (j - 1) 0)) := by
  unfold deltas
  rw [List.getElem?_map, List.getElem?_range hj]
  rfl

theorem up_moves_getElem {closes : List ℚ} {j : ℕ} (hj : j < closes.length)
    (hj0 : j ≠ 0) :
    (up_moves closes)[j]? =
      some (some (max (closes.getD j 0 - closes.getD (j - 1) 0) 0)) := by
  unfold up_moves
  rw [List.getElem?_map, deltas_getElem hj, if_neg hj0]
  rfl

theorem down_moves_getElem {closes : List ℚ} {j : ℕ} (hj : j < closes.length)
    (hj0 : j ≠ 0) :
    (down_moves closes)[j]? =
      some (some (-(min (closes.getD j 0 - closes.getD (j - 1) 0) 0))) := by
  unfold down_moves
  rw [List.getElem?_map, deltas_getElem hj, if_neg hj0]
  rfl

/-- A rolling mean whose window contains at least one defined entry is
defined and bounded below by 0 when every defined entry of the series is
nonnegative; it is moreover positive when the window contains a positive
entry. -/
theorem roll_mean_defined {xs : List (Option ℚ)} {w i j : ℕ} {v : ℚ}
    (hnn : ∀ q : ℚ, some q ∈ xs → 0 ≤ q)
    (h1 : i + 1 - w ≤ j) (h2 : j ≤ i) (hv : xs[j]? = some (some v)) :
    ∃ u, roll_mean xs w i = some u ∧ 0 ≤ u ∧ (0 < v → 0 < u) := by
  have hmem : (some v) ∈ window_slice xs w i := mem_window_slice h1 h2 hv
  have hvin : v ∈ (window_slice xs w i).filterMap id :=
    List.mem_filterMap.mpr ⟨some v, hmem, rfl⟩
  have hlenpos : 0 < ((window_slice xs w i).filterMap id).length :=
    List.length_pos.mpr (List.ne_nil_of_mem hvin)
  have hallnn : ∀ x ∈ (window_slice xs w i).filterMap id, 0 ≤ x := by
    intro x hx
    obtain ⟨o, ho, hxo⟩ := List.mem_filterMap.mp hx
    have : o = some x := hxo
    rw [this] at ho
    exact hnn x (mem_of_mem_window_slice ho)
  refine ⟨((window_slice xs w i).filterMap id).sum /
      ((window_slice xs w i).filterMap id).length, ?_, ?_, ?_⟩
  · unfold roll_mean
    rw [if_neg (by omega)]
  · exact div_nonneg (List.sum_nonneg hallnn) (Nat.cast_nonneg _)
  · intro hvpos
    apply div_pos (list_sum_pos_of_mem _ hallnn v hvin hvpos)
    exact_mod_cast hlenpos

/-- C7 counterexample: with 15 identical closes the row at index 14 has a
full 14-delta warm-up, yet both rolling averages are 0, `rs` is `0/0`
(NaN in the float code) and `RSI_14` is undefined — contradicting
"defined ... including when the average loss over the window is zero". -/
theorem claim_C7_counterexample :
    RSI_14 (List.replicate 15 (10 : ℚ)) 14 = none ∧
      14 < (List.replicate 15 (10 : ℚ)).length := by
  with_unfolding_all decide

/-- C7 amended: for every row with full RSI warm-up whose window holds at
least one nonzero delta (equivalently: average gain and average loss not
both zero), `RSI_14` is defined and `0 ≤ RSI_14 ≤ 100`; a zero average
loss with positive average gain yields exactly 100.  (When every delta in
the window is zero, `rs = 0/0` and RSI is NaN — the case ruled out
here.) -/
theorem claim_C7_rsi_bounds (closes : List ℚ) (i : ℕ)
    (h14 : 14 ≤ i) (hi : i < closes.length)
    (hnz : ∃ j, i + 1 - 14 ≤ j ∧ j ≤ i ∧
      closes.getD j 0 - closes.getD (j - 1) 0 ≠ 0) :
    ∃ r, RSI_14 closes i = some r ∧ 0 ≤ r ∧ r ≤ 100 := by
  have hi0 : i ≠ 0 := by omega
  obtain ⟨j, hj1, hj2, hjnz⟩ := hnz
  have hj0 : j ≠ 0 := by omega
  have hjlen : j < closes.length := by omega
  set Δ := closes.getD j 0 - closes.getD (j - 1) 0 with hΔ
  have hupj := up_moves_getElem hjlen hj0
  have hdownj := down_moves_getElem hjlen hj0
  obtain ⟨u, hu, hu0, hupos⟩ :=
    roll_mean_defined (up_moves_nonneg closes) hj1 hj2 hupj
  obtain ⟨d, hd, hd0, hdpos⟩ :=
    roll_mean_defined (down_moves_nonneg closes) hj1 hj2 hdownj
  have hRSI : RSI_14 closes i =
      if d = 0 then (if u = 0 then none else some 100)
      else some (100 - 100 / (1 + u / d)) := by
    unfold RSI_14
    rw [hu, hd]
  by_cases hdz : d = 0
  · rw [hRSI, if_pos hdz]
    have hΔpos : 0 < Δ := by
      rcases lt_trichotomy Δ 0 with hneg | hzero | hpos
      · exfalso
        have hdd : 0 < -(min Δ 0) := by
          rw [min_eq_left (le_of_lt hneg)]
          linarith
        have hcontr := hdpos hdd
        rw [hdz] at hcontr
        exact lt_irrefl 0 hcontr
      · exact absurd hzero hjnz
      · exact hpos
    have humax : 0 < max Δ 0 := lt_max_of_lt_left hΔpos
    have hupos' := hupos humax
    rw [if_neg (ne_of_gt hupos')]
    exact ⟨100, rfl, by norm_num, by norm_num⟩
  · rw [hRSI, if_neg hdz]
    have hdpos' : 0 < d := lt_of_le_of_ne hd0 (Ne.symm hdz)
    have hra : 0 ≤ u / d := div_nonneg hu0 (le_of_lt hdpos')
    have h1le : (1 : ℚ) ≤ 1 + u / d := by linarith
    have hfrac_pos : 0 < 100 / (1 + u / d) := by positivity
    have hfrac_le : 100 / (1 + u / d) ≤ 100 := by
      apply div_le_self (by norm_num) h1le
    exact ⟨100 - 100 / (1 + u / d), rfl, by linarith, by linarith⟩

/-- Witness for the amended C7: closes `1..15`, all deltas equal to 1, at
the first fully warmed-up row `i = 14`. -/
theorem claim_C7_rsi_bounds_witness :
    (14 ≤ 14 ∧
      14 < ([(1 : ℚ), 2, 3, 4, 5, 6, 7, 8, 9, 10, 11, 12, 13, 14, 15]).length ∧
      (∃ j, 14 + 1 - 14 ≤ j ∧ j ≤ 14 ∧
        ([(1 : ℚ), 2, 3, 4, 5, 6, 7, 8, 9, 10, 11, 12, 13, 14, 15]).getD j 0 -
          ([(1 : ℚ), 2, 3, 4, 5, 6, 7, 8, 9, 10, 11, 12, 13, 14, 15]).getD (j - 1) 0 ≠ 0)) ∧
    ∃ r, RSI_14 [(1 : ℚ), 2, 3, 4, 5, 6, 7, 8, 9, 10, 11, 12, 13, 14, 15] 14 =
        some r ∧ 0 ≤ r ∧ r ≤ 100 :=
  ⟨⟨by omega, by with_unfolding_all decide,
      ⟨14, by omega, by omega, by with_unfolding_all decide⟩⟩,
    claim_C7_rsi_bounds [(1 : ℚ), 2, 3, 4, 5, 6, 7, 8, 9, 10, 11, 12, 13, 14, 15]
      14 (by omega) (by with_unfolding_all decide)
      ⟨14, by omega, by omega, by with_unfolding_all decide⟩⟩

/-! ### `transformar_dados.py`: the full feature transform (lines 99-167)
and the C1 concrete pipeline scenario -/

/-- One row of the transformed DataFrame.  `Option ℚ` marks the cells
that can be NaN: `var_fechamento` (diff at row 0), `RSI_14` (row 0 or a
flat delta window) and `fechamento_futuro` (last row); every other column
is total thanks to `min_periods=1` and the `fillna(0)` calls. -/
structure FeatureRow where
  timestamp : ℕ
  abertura : ℚ
  maxima : ℚ
  minima : ℚ
  fechamento : ℚ
  volume : ℚ
  pressao_compradora : ℚ
  pressao_vendedora : ℚ
  SMA_5 : ℚ
  EMA_5 : ℚ
  SMA_10 : ℚ
  EMA_10 : ℚ
  SMA_20 : ℚ
  EMA_20 : ℚ
  SMA_50 : ℚ
  EMA_50 : ℚ
  SMA_100 : ℚ
  EMA_100 : ℚ
  SMA_200 : ℚ
  EMA_200 : ℚ
  resistencia : ℚ
  suporte : ℚ
  dist_resistencia : ℚ
  dist_suporte : ℚ
  var_fechamento : Option ℚ
  RSI_14 : Option ℚ
  vol_media_5 : ℚ
  vol_media_20 : ℚ
  fechamento_futuro : Option ℚ
  hora_num : ℚ
  minuto : ℚ
  dia_semana : ℚ
  retorno : ℚ
  volatilidade : ℚ

/-- `x.rolling(w, min_periods=1).mean()` for a NaN-free column. -/
def roll_mean_q (xs : List ℚ) (w i : ℕ) : ℚ :=
  ss_mean ((xs.take (i + 1)).drop (i + 1 - w))

/-- `x.rolling(w, min_periods=1).max()`. -/
def roll_max_q (xs : List ℚ) (w i : ℕ) : ℚ :=
  npMax ((xs.take (i + 1)).drop (i + 1 - w))

/-- `x.rolling(w, min_periods=1).min()`. -/
def roll_min_q (xs : List ℚ) (w i : ℕ) : ℚ :=
  npMin ((xs.take (i + 1)).drop (i + 1 - w))

/-- Tail of `ewm(span=p, adjust=False).mean()`:
`e_t = α x_t + (1 - α) e_{t-1}`. -/
def ema_from (alpha prev : ℚ) : List ℚ → List ℚ
  | [] => []
  | x :: xs =>
      let e := alpha * x + (1 - alpha) * prev
      e :: ema_from alpha e xs

/-- `ewm(span=p, adjust=False).mean()` (line 113): seeded with the first
value, `α = 2/(span + 1)`. -/
def ema_list (span : ℕ) : List ℚ → List ℚ
  | [] => []
  | x :: xs => x :: ema_from (2 / ((span : ℚ) + 1)) x xs

/-- The sample variance (`ddof = 1`) underlying the pandas rolling
standard deviation. -/
def sample_var (l : List ℚ) : ℚ :=
  (l.map (fun x => (x - ss_mean l) ^ 2)).sum / ((l.length : ℚ) - 1)

/-- `retorno = fechamento.pct_change().fillna(0)` (line 153): 0 at row 0.
A zero previous close gives ±∞/NaN in floats; positive closes, as in the
concrete scenario, never hit that case. -/
def retorno_list (closes : List ℚ) : List ℚ :=
  (List.range closes.length).map (fun i =>
    if i = 0 then 0
    else (closes.getD i 0 - closes.getD (i - 1) 0) / closes.getD (i - 1) 0)

/-- `volatilidade = retorno.rolling(10, min_periods=1).std().fillna(0)`
(line 158): 0 where the window holds a single entry (pandas NaN, then
filled), the sample standard deviation via `rsqrt` otherwise. -/
def volatilidade_at (rsqrt : ℚ → ℚ) (rets : List ℚ) (i : ℕ) : ℚ :=
  let vals := (rets.take (i + 1)).drop (i + 1 - 10)
  if vals.length ≤ 1 then 0 else rsqrt (sample_var vals)

/-- Row `i` of the transformed DataFrame (lines 107-164): pressures,
SMA/EMA per period, support/resistance and distances, close diff, RSI,
volume means, next-close target, temporal fields, return and
volatility. -/
def transformar_row (rsqrt : ℚ → ℚ) (df : List Candle) (i : ℕ) : FeatureRow :=
  let closes := df.map Candle.fechamento
  let highs := df.map Candle.maxima
  let lows := df.map Candle.minima
  let vols := df.map Candle.volume
  let rets := retorno_list closes
  let c := df.getD i ⟨0, 0, 0, 0, 0, 0⟩
  { timestamp := c.ts
    abertura := c.abertura
    maxima := c.maxima
    minima := c.minima
    fechamento := c.fechamento
    volume := c.volume
    pressao_compradora := c.maxima - c.fechamento
    pressao_vendedora := c.fechamento - c.minima
    SMA_5 := roll_mean_q closes 5 i
    EMA_5 := (ema_list 5 closes).getD i 0
    SMA_10 := roll_mean_q closes 10 i
    EMA_10 := (ema_list 10 closes).getD i 0
    SMA_20 := roll_mean_q closes 20 i
    EMA_20 := (ema_list 20 closes).getD i 0
    SMA_50 := roll_mean_q closes 50 i
    EMA_50 := (ema_list 50 closes).getD i 0
    SMA_100 := roll_mean_q closes 100 i
    EMA_100 := (ema_list 100 closes).getD i 0
    SMA_200 := roll_mean_q closes 200 i
    EMA_200 := (ema_list 200 closes).getD i 0
    resistencia := roll_max_q highs 20 i
    suporte := roll_min_q lows 20 i
    dist_resistencia := roll_max_q highs 20 i - c.fechamento
    dist_suporte := c.fechamento - roll_min_q lows 20 i
    var_fechamento := (deltas closes).getD i none
    RSI_14 := RSI_14 closes i
    vol_media_5 := roll_mean_q vols 5 i
    vol_media_20 := roll_mean_q vols 20 i
    fechamento_futuro :=
      if i + 1 < df.length then some (closes.getD (i + 1) 0) else none
    hora_num := ((c.ts / 3600 % 24 : ℕ) : ℚ)
    minuto := ((c.ts / 60 % 60 : ℕ) : ℚ)
    dia_semana := ((c.ts / 86400 + 3) % 7 : ℕ)
    retorno := rets.getD i 0
    volatilidade := volatilidade_at rsqrt rets i }

/-- Line 167: `df.dropna()` — over this model only `var_fechamento`,
`RSI_14` and `fechamento_futuro` can be NaN, so a row survives iff all
three are defined. -/
def transformar_dropna (rows : List FeatureRow) : List FeatureRow :=
  rows.filter (fun r =>
    r.var_fechamento.isSome && r.RSI_14.isSome && r.fechamento_futuro.isSome)

/-- `transformar_dados.py`: sort by the time column (line 99), build every
feature row, then drop NaN rows (line 167). -/
def transformar_dados (rsqrt : ℚ → ℚ) (candles : List Candle) : List FeatureRow :=
  let df := sort_values candles
  transformar_dropna ((List.range df.length).map (transformar_row rsqrt df))

/-- `preparar_dados` lines 96-101: the range-normalized names, with the
SMA/EMA names in DataFrame column order (the creation loop of
`transformar_dados` lines 111-113 interleaves them by period). -/
def features_norm_list : List String :=
  ["abertura", "maxima", "minima", "fechamento",
   "pressao_compradora", "pressao_vendedora", "var_fechamento",
   "resistencia", "suporte", "dist_resistencia", "dist_suporte",
   "SMA_5", "EMA_5", "SMA_10", "EMA_10", "SMA_20", "EMA_20",
   "SMA_50", "EMA_50", "SMA_100", "EMA_100", "SMA_200", "EMA_200"]

/-- Line 102: the z-scored names. -/
def features_std_list : List String :=
  ["volume", "vol_media_5", "vol_media_20", "retorno", "volatilidade"]

/-- Line 112: `features_norm + features_std + features_keep +
features_fixed`. -/
def features_list : List String :=
  features_norm_list ++ features_std_list ++ ["RSI_14"] ++
    ["hora_num", "minuto", "dia_semana"]

/-- A transformed row as `criar_sequencias` reads it, after
`preparar_dados` divided the temporal columns by 23, 59 and 6 (lines
107-109). -/
def featureRowToRow (r : FeatureRow) : RowD := fun s =>
  if s = "abertura" then some r.abertura
  else if s = "maxima" then some r.maxima
  else if s = "minima" then some r.minima
  else if s = "fechamento" then some r.fechamento
  else if s = "volume" then some r.volume
  else if s = "pressao_compradora" then some r.pressao_compradora
  else if s = "pressao_vendedora" then some r.pressao_vendedora
  else if s = "SMA_5" then some r.SMA_5
  else if s = "EMA_5" then some r.EMA_5
  else if s = "SMA_10" then some r.SMA_10
  else if s = "EMA_10" then some r.EMA_10
  else if s = "SMA_20" then some r.SMA_20
  else if s = "EMA_20" then some r.EMA_20
  else if s = "SMA_50" then some r.SMA_50
  else if s = "EMA_50" then some r.EMA_50
  else if s = "SMA_100" then some r.SMA_100
  else if s = "EMA_100" then some r.EMA_100
  else if s = "SMA_200" then some r.SMA_200
  else if s = "EMA_200" then some r.EMA_200
  else if s = "resistencia" then some r.resistencia
  else if s = "suporte" then some r.suporte
  else if s = "dist_resistencia" then some r.dist_resistencia
  else if s = "dist_suporte" then some r.dist_suporte
  else if s = "var_fechamento" then r.var_fechamento
  else if s = "RSI_14" then r.RSI_14
  else if s = "vol_media_5" then some r.vol_media_5
  else if s = "vol_media_20" then some r.vol_media_20
  else if s = "fechamento_futuro" then r.fechamento_futuro
  else if s = "hora_num" then some (r.hora_num / 23)
  else if s = "minuto" then some (r.minuto / 59)
  else if s = "dia_semana" then some (r.dia_semana / 6)
  else if s = "retorno" then some r.retorno
  else if s = "volatilidade" then some r.volatilidade
  else none

/-- The C1 pipeline: feature transform (`transformar_dados`), the
target-subset dropna of `carregar_csv` (a no-op after the transform's own
full `dropna`), the temporal rescaling of `preparar_dados`, then the
sequence builder. -/
def pipeline_C1 (rsqrt : ℚ → ℚ) (candles : List Candle) (seq_len : ℕ) :
    List (List (List ℚ)) × List ℚ × ℕ :=
  let df := transformar_dados rsqrt candles
  let df2 := df.filter (fun r => r.fechamento_futuro.isSome)
  criar_sequencias rsqrt (df2.map featureRowToRow) seq_len
    features_list features_norm_list features_std_list "fechamento_futuro"

/-- The C1 scenario input: 5 candles with closes `[10, 12, 11, 13, 14]`
on a 5-minute grid (the claim pins only the closes). -/
def candles_C1 : List Candle :=
  [⟨0, 10, 11, 9, 10, 1⟩, ⟨300, 12, 13, 11, 12, 2⟩, ⟨600, 11, 12, 10, 11, 3⟩,
   ⟨900, 13, 14, 12, 13, 4⟩, ⟨1200, 14, 15, 13, 14, 5⟩]

/-- C1 counterexample: on 5 candles with closes `[10, 12, 11, 13, 14]`
and `L = 3` the pipeline produces 0 windows, not 2 — the transform's
`dropna` also removes the FIRST row (whose `diff`-based `var_fechamento`
and `RSI_14` are NaN), not just the target-less last row, leaving only 3
rows with closes `[12, 11, 13]`. -/
theorem claim_C1_counterexample :
    (transformar_dados (fun q => q) candles_C1).map FeatureRow.fechamento =
        [12, 11, 13] ∧
      ¬ (pipeline_C1 (fun q => q) candles_C1 3).1.length = 2 := by
  with_unfolding_all decide

/-- C1 amended: for 5 candles with closes `[10, 12, 11, 13, 14]` and
`L = 3`, the feature transform keeps exactly the rows with closes
`[12, 11, 13]` (targets `[11, 13, 14]`) — the first row is dropped for
its undefined diff features, the last for its missing target — and the
sequence builder therefore produces exactly 0 windows, with nothing
discarded. -/
theorem claim_C1_scenario :
    (transformar_dados (fun q => q) candles_C1).map FeatureRow.fechamento =
        [12, 11, 13] ∧
      (transformar_dados (fun q => q) candles_C1).map
          FeatureRow.fechamento_futuro = [some 11, some 13, some 14] ∧
      pipeline_C1 (fun q => q) candles_C1 3 = ([], [], 0) := by
  with_unfolding_all decide

end Indicador
